import Mathlib

/-!
Verification of the authentication-form detector of
`src/app/utils/htmlParser.ts`.

The repository ships two near-duplicate implementations of
`parseHtmlForAuthForms`: a permissive one (first copy of the file) and a
strict one (second copy).  Both operate on the DOM tree that `cheerio.load`
builds from the input string.  `cheerio.load` is third-party library code
and is total (it builds a best-effort tree for any string, wrapping the
content in `html`/`head`/`body`), so the detector is modelled here as a
total function over an arbitrary DOM tree: quantifying over all trees
covers the image of every input string.

Elements are addressed by their position path from the root (the list of
child indexes), which models DOM node identity.  Serialisation
(`outerHTML`) is modelled structurally; no claim depends on the exact
rendered text, only on which element was serialised.
-/

namespace AuthScan

/-- A DOM node: an element with a tag, an attribute list and children, or a
text node.  This models the tree cheerio builds from the input HTML. -/
inductive Node where
  | elem (tag : String) (attrs : List (String × String)) (children : List Node)
  | text (s : String)

/-- The position of a node inside a tree: the list of child indexes from the
root.  Two nodes are the same DOM node exactly when their paths coincide. -/
abbrev Path := List Nat

/-- First value bound to an attribute name, as `$el.attr(name)` returns it
(`none` models JavaScript `undefined`). -/
def Node.attrOf : Node → String → Option String
  | .elem _ attrs _, a => (attrs.find? (fun kv => kv.1 = a)).map (fun kv => kv.2)
  | .text _, _ => none

/-- JavaScript `$el.attr(name) || undefined`: an empty string is falsy, so it
collapses to `undefined`. -/
def optAttr (n : Node) (a : String) : Option String :=
  match n.attrOf a with
  | some s => if s = "" then none else some s
  | none => none

/-- JavaScript `toLowerCase`, on the character level exactly as Lean's
`Char.toLower` (ASCII letters), but defined through the string's character
list so that it evaluates inside the kernel. -/
def strLower (s : String) : String := String.mk (s.data.map Char.toLower)

/-- Does `hay` start with `needle`? -/
def leadsWith : List Char → List Char → Bool
  | [], _ => true
  | _ :: _, [] => false
  | a :: as, b :: bs => a = b && leadsWith as bs

/-- Does `needle` occur contiguously inside `hay`? -/
def hasSubList (needle : List Char) : List Char → Bool
  | [] => leadsWith needle []
  | b :: bs => leadsWith needle (b :: bs) || hasSubList needle bs

/-- JavaScript `String.prototype.includes`: substring containment. -/
def substr (needle hay : String) : Bool :=
  hasSubList needle.toList hay.toList

mutual

/-- `$el.text()`: concatenation of every descendant text node, in tree
order. -/
def Node.textContent : Node → String
  | .text s => s
  | .elem _ _ cs => textListContent cs

def textListContent : List Node → String
  | [] => ""
  | c :: rest => c.textContent ++ textListContent rest

end

def renderAttrs : List (String × String) → String
  | [] => ""
  | (k, v) :: rest => " " ++ k ++ "=\"" ++ v ++ "\"" ++ renderAttrs rest

mutual

/-- `$el.prop('outerHTML')`, modelled structurally: tag, attributes and
children rendered in order.  Claims depend only on which node is rendered,
never on the exact text, so void-element/escaping details are immaterial. -/
def Node.outerHTML : Node → String
  | .text s => s
  | .elem t attrs cs => "<" ++ t ++ renderAttrs attrs ++ ">" ++ renderChildren cs ++ "</" ++ t ++ ">"

def renderChildren : List Node → String
  | [] => ""
  | c :: rest => c.outerHTML ++ renderChildren rest

end

mutual

/-- The node a path points to, if any.  Text nodes have no children. -/
def Node.nodeAt : Node → Path → Option Node
  | n, [] => some n
  | .text _, _ :: _ => none
  | .elem _ _ cs, i :: p => nodeAtList cs i p

def nodeAtList : List Node → Nat → Path → Option Node
  | [], _, _ => none
  | c :: _, 0, p => c.nodeAt p
  | _ :: rest, i + 1, p => nodeAtList rest i p

end

mutual

/-- Paths of every strict descendant element of a node, in document
(preorder) order, relative to that node. -/
def Node.descElemPaths : Node → List Path
  | .text _ => []
  | .elem _ _ cs => descElemPathsList cs 0

def descElemPathsList : List Node → Nat → List Path
  | [], _ => []
  | .text _ :: rest, i => descElemPathsList rest (i + 1)
  | .elem t a cs :: rest, i =>
      ([i] :: (Node.descElemPaths (.elem t a cs)).map (fun q => i :: q))
        ++ descElemPathsList rest (i + 1)

end

/-- Paths of every element of the tree (the root included when it is an
element), in document order: what a selector run from the document root
traverses. -/
def allElemPaths (root : Node) : List Path :=
  match root with
  | .text _ => root.descElemPaths
  | .elem _ _ _ => [] :: root.descElemPaths

/-- The tag at a path, when the path points to an element. -/
def tagAt (root : Node) (p : Path) : Option String :=
  match root.nodeAt p with
  | some (.elem t _ _) => some t
  | _ => none

/-- `$el.attr` seen from the root through a path. -/
def attrAt (root : Node) (p : Path) (a : String) : Option String :=
  match root.nodeAt p with
  | some n => n.attrOf a
  | none => none

/-- Text content of the node at a path (empty for a dangling path, like the
text of an empty cheerio selection). -/
def textAt (root : Node) (p : Path) : String :=
  match root.nodeAt p with
  | some n => n.textContent
  | none => ""

/-- Outer markup of the node at a path, `none` when the path is dangling.
Models `$sel.prop('outerHTML') || null`. -/
def outerAt (root : Node) (p : Path) : Option String :=
  match root.nodeAt p with
  | some n => let h := n.outerHTML; if h = "" then none else some h
  | none => none

/-- Paths of the strict descendant elements of the node at `p`, as absolute
paths: `$sel.find(...)`. -/
def descAt (root : Node) (p : Path) : List Path :=
  match root.nodeAt p with
  | some n => n.descElemPaths.map (fun q => p ++ q)
  | none => []

/-- The proper prefixes of a path, shortest first. -/
def properPrefixesAsc : Path → List Path
  | [] => []
  | i :: p => [] :: (properPrefixesAsc p).map (fun q => i :: q)

/-- The proper ancestors of a path, innermost first, ending with the root
`[]`: the chain `.parent()`, `.parent().parent()`, … walks. -/
def ancestorChain (p : Path) : List Path := (properPrefixesAsc p).reverse

theorem properPrefixesAsc_append (p : Path) (x : Nat) :
    properPrefixesAsc (p ++ [x]) = properPrefixesAsc p ++ [p] := by
  induction p with
  | nil => rfl
  | cons i q ih => simp [properPrefixesAsc, ih]

/-- The chain steps through `dropLast`, innermost ancestor first. -/
theorem ancestorChain_eq_cons (p : Path) (h : p ≠ []) :
    ancestorChain p = p.dropLast :: ancestorChain p.dropLast := by
  obtain ⟨q, x, rfl⟩ : ∃ q x, p = q ++ [x] := by
    rcases List.eq_nil_or_concat p with h2 | ⟨q, x, h2⟩
    · exact absurd h2 h
    · rw [List.concat_eq_append] at h2
      exact ⟨q, x, h2⟩
  rw [ancestorChain, properPrefixesAsc_append]
  simp [ancestorChain, List.dropLast_concat]

/-! ## Candidate input scanner -/

/-- The joined, lower-cased attribute bag of one input element
(htmlParser.ts lines 68-80 and 439-451): the enumerated attributes, keeping
values that are truthy and not the literal string `"undefined"`, joined with
single spaces. -/
def attributesText (n : Node) : String :=
  let vals := [n.attrOf "name", n.attrOf "id", n.attrOf "placeholder",
    n.attrOf "type", n.attrOf "class", n.attrOf "aria-label",
    n.attrOf "aria-labelledby", n.attrOf "autocomplete",
    n.attrOf "data-testid", n.attrOf "data-cy", n.attrOf "data-test"]
  let kept := vals.filterMap (fun v =>
    match v with
    | some s => if s = "" || s = "undefined" then none else some s
    | none => none)
  strLower (String.intercalate " " kept)

/-- `$('input')` run on the document: every element whose tag is `input`, in
document order. -/
def inputPaths (root : Node) : List Path :=
  (allElemPaths root).filter (fun p => tagAt root p == some "input")

/-- An element matched by the selector `button, input[type="submit"], a`. -/
def isButtonish (root : Node) (q : Path) : Bool :=
  tagAt root q == some "button" || tagAt root q == some "a" ||
    (tagAt root q == some "input" && attrAt root q "type" == some "submit")

/-- `$input.closest('form')`: the element itself or its nearest ancestor
with tag `form`. -/
def closestFormPath (root : Node) (p : Path) : Option Path :=
  (p :: ancestorChain p).find? (fun q => tagAt root q == some "form")

/-- Common shape of the two `hasAuthenticationContext` helpers
(htmlParser.ts lines 24-58 and 390-425).  Inspects the parent's text and the
closest form's text for the given phrases, collects
`button, input[type="submit"], a` under the parent and under the form
(`.add` keeps document order without duplicates), and checks their joined
text for the button phrases.  The strict variant requires text AND button
evidence, the permissive one accepts either. -/
def authContextCore (root : Node) (p : Path)
    (textPats btnPats : List String) (needBoth : Bool) : Bool :=
  let parentP : Option Path := match p with | [] => none | _ :: _ => some p.dropLast
  let formP := closestFormPath root p
  let parentText := strLower (match parentP with | some q => textAt root q | none => "")
  let formText := match formP with | some q => strLower (textAt root q) | none => ""
  let hasText := textPats.any (fun pat => substr pat parentText || substr pat formText)
  let parentBtns := match parentP with
    | some q => (descAt root q).filter (isButtonish root)
    | none => []
  let formBtns := match formP with
    | some q => (descAt root q).filter (isButtonish root)
    | none => []
  let union := (allElemPaths root).filter (fun q => parentBtns.contains q || formBtns.contains q)
  let buttonText := strLower (String.join (union.map (fun q => textAt root q)))
  let hasBtn := btnPats.any (fun pat => substr pat buttonText)
  if needBoth then hasText && hasBtn else hasText || hasBtn

/-- The permissive `hasAuthenticationContext` (lines 24-58). -/
def authContextPermissive (root : Node) (p : Path) : Bool :=
  authContextCore root p
    ["sign in", "signin", "log in", "login", "log in to",
     "enter your password", "password", "username", "email",
     "forgot password", "reset password", "create account",
     "authentication", "credentials", "access"]
    ["sign in", "signin", "log in", "login", "submit",
     "continue", "next", "enter", "access"]
    false

/-- The strict `hasAuthenticationContext` (lines 390-425): strong phrases
only, and text AND button evidence both required. -/
def authContextStrict (root : Node) (p : Path) : Bool :=
  authContextCore root p
    ["sign in", "signin", "log in", "login", "log in to",
     "enter your password", "forgot password", "reset password",
     "create account", "sign up", "register"]
    ["sign in", "signin", "log in", "login", "sign up", "register"]
    true

/-- The permissive variant's candidate filter (lines 65-120): password type
short-circuits; otherwise password-shaped attributes, a broad keyword list,
fixed auth patterns, or textual context admit the input. -/
def permissiveCandidate (root : Node) (p : Path) : Bool :=
  match root.nodeAt p with
  | none => false
  | some n =>
    let attrsText := attributesText n
    if n.attrOf "type" == some "password" then true
    else
      let inputValue := (n.attrOf "value").getD ""
      let isPasswordField :=
        substr "password" attrsText || substr "pass" attrsText ||
          substr "pwd" attrsText ||
          (inputValue != "" && substr "hidden" attrsText)
      let hasAuthKeyword :=
        ["password", "pass", "passwd", "pwd", "email", "username", "user",
         "login", "signin", "sign-in", "authentication", "auth",
         "credential"].any (fun k => substr k attrsText)
      let hasAuthPattern :=
        substr "current-password" attrsText || substr "new-password" attrsText ||
          substr "username" attrsText || substr "email" attrsText ||
          substr "login" attrsText || substr "signin" attrsText
      let hasContext := authContextPermissive root p
      isPasswordField || hasAuthKeyword || hasAuthPattern || hasContext

/-- The strict variant's candidate filter (lines 437-471): password type
short-circuits; otherwise a strong keyword AND strong context are both
required. -/
def strictCandidate (root : Node) (p : Path) : Bool :=
  match root.nodeAt p with
  | none => false
  | some n =>
    let attrsText := attributesText n
    if n.attrOf "type" == some "password" then true
    else
      let hasStrongAuthKeyword :=
        ["email", "username", "user", "login", "signin", "sign-in"].any
          (fun k => substr k attrsText)
      let hasStrongContext := authContextStrict root p
      hasStrongAuthKeyword && hasStrongContext

/-! ## Collecting candidate inputs (lines 144-170 and 502-528) -/

/-- One collected candidate input: the element (for later re-reads of its
attributes, as the source stores `element`), its position, and the detail
fields the source stores (`selector` is the element's outer markup, the
others are `attr(..) || undefined`). -/
structure Entry where
  path : Path
  node : Node
  selector : String
  name : Option String
  id : Option String
  placeholder : Option String
  type : Option String

/-- The synthesized selector string used as the duplicate-tracking key
(lines 152-153 / 510-511):
`` `${attr('type') || 'input'}[${inputId ? `id="${inputId}"` : `name="${attr('name')}"`}]` ``
with `inputId = attr('id') || attr('name') || 'input-<index>'`. -/
def mkKey (n : Node) (idx : Nat) : String :=
  let inputId := ((optAttr n "id").orElse (fun _ => optAttr n "name")).getD
    ("input-" ++ toString idx)
  ((optAttr n "type").getD "input") ++ "[" ++
    (if inputId = "" then "name=\"" ++ ((n.attrOf "name").getD "undefined") ++ "\""
     else "id=\"" ++ inputId ++ "\"") ++ "]"

/-- The entry pushed for one candidate (lines 162-169 / 520-527). -/
def mkEntry (p : Path) (n : Node) : Entry :=
  { path := p
    node := n
    selector := n.outerHTML
    name := optAttr n "name"
    id := optAttr n "id"
    placeholder := optAttr n "placeholder"
    type := optAttr n "type" }

/-- The node a candidate path denotes (candidate paths always point at an
element; the default covers the vacuous out-of-tree case). -/
def nodeAtD (root : Node) (p : Path) : Node :=
  (root.nodeAt p).getD (.text "")

/-- The `authInputs.each` loop: walk the candidates in document order with a
running index, skip a candidate whose synthesized selector was already seen,
store an entry otherwise. -/
def collectGo (root : Node) : Nat → List String → List Path → List Entry
  | _, _, [] => []
  | idx, processed, p :: rest =>
    let n := nodeAtD root p
    let key := mkKey n idx
    if processed.contains key then collectGo root (idx + 1) processed rest
    else mkEntry p n :: collectGo root (idx + 1) (key :: processed) rest

/-- `allAuthInputs` as collected from the candidate list. -/
def collectEntries (root : Node) (cands : List Path) : List Entry :=
  collectGo root 0 [] cands

/-! ## Report descriptors and deduplication (lines 172-195, 269-283 and
530-553, 632-646) -/

/-- A `passwordInputs` descriptor. -/
structure PwdDesc where
  selector : String
  name : Option String
  id : Option String
  placeholder : Option String
  type : Option String
deriving DecidableEq

/-- An `otherInputs` descriptor.  Its `type` field is the source's
`input.id || input.type || 'text'`. -/
structure OtherDesc where
  type : String
  name : Option String
  id : Option String
  placeholder : Option String
deriving DecidableEq

def mkPwdDesc (e : Entry) : PwdDesc :=
  { selector := e.selector, name := e.name, id := e.id,
    placeholder := e.placeholder, type := e.type }

def mkOtherDesc (e : Entry) : OtherDesc :=
  { type := (e.id.orElse (fun _ => e.type)).getD "text",
    name := e.name, id := e.id, placeholder := e.placeholder }

/-- The categorisation re-reads `attr('type')` from the stored element
(lines 173-178 / 531-536). -/
def entryIsPwd (e : Entry) : Bool := e.node.attrOf "type" == some "password"

def pwdPreOf (entries : List Entry) : List PwdDesc :=
  entries.filterMap (fun e => if entryIsPwd e then some (mkPwdDesc e) else none)

def otherPreOf (entries : List Entry) : List OtherDesc :=
  entries.filterMap (fun e => if entryIsPwd e then none else some (mkOtherDesc e))

def tripleP (d : PwdDesc) : Option String × Option String × Option String :=
  (d.id, d.name, d.type)

def tripleO (d : OtherDesc) : Option String × Option String × String :=
  (d.id, d.name, d.type)

/-- The final deduplication idiom (lines 270-280 / 633-643):
`l.filter((x, i) => i === l.findIndex(y => sameTriple y x))`. -/
def dedupByKey {α κ : Type} [DecidableEq κ] (key : α → κ) (l : List α) : List α :=
  (l.enum.filter (fun ix => l.findIdx (fun y => key y = key ix.2) = ix.1)).map
    Prod.snd

/-! ## Container locator (lines 197-267 and 555-630) -/

/-- Does this ancestor contain an email/username-shaped descendant input
(lines 214-228 / 572-586)?  `type === 'email'`, or `type === 'text'` and an
identity keyword inside name/id/placeholder/class. -/
def hasEmailUsernameAt (root : Node) (q : Path) : Bool :=
  ((descAt root q).filter (fun ip => tagAt root ip == some "input")).any (fun ip =>
    match root.nodeAt ip with
    | none => false
    | some el =>
      let ty := (el.attrOf "type").map strLower
      let nm := ((el.attrOf "name").map strLower).getD ""
      let idv := ((el.attrOf "id").map strLower).getD ""
      let ph := ((el.attrOf "placeholder").map strLower).getD ""
      let cls := ((el.attrOf "class").map strLower).getD ""
      ty == some "email" ||
        (ty == some "text" &&
          (substr "email" nm || substr "username" nm || substr "user" nm ||
           substr "email" idv || substr "username" idv || substr "user" idv ||
           substr "email" ph || substr "username" ph ||
           substr "email" cls || substr "username" cls)))

/-- Does this ancestor contain a descendant `input[type="password"]`
(lines 231 / 589)? -/
def hasPasswordAt (root : Node) (q : Path) : Bool :=
  (descAt root q).any (fun ip =>
    tagAt root ip == some "input" && attrAt root ip "type" == some "password")

/-- `$parent.find('input').not('input[type="hidden"]').length`
(lines 236 / 599): the count of non-hidden descendant inputs. -/
def countNonHidden (root : Node) (q : Path) : Nat :=
  ((descAt root q).filter (fun ip =>
    tagAt root ip == some "input" && !(attrAt root ip "type" == some "hidden"))).length

/-- The permissive walk's eligibility (line 234): BOTH email/username and
password descendants required. -/
def eligPerm (root : Node) (q : Path) : Bool :=
  hasEmailUsernameAt root q && hasPasswordAt root q

/-- The permissive walk's score (line 239): the non-hidden input count. -/
def scorePerm (root : Node) (q : Path) : Nat := countNonHidden root q

/-- The strict variant's flexible eligibility (lines 594-597): traditional
auth (both present) or multipart auth (email/username without password). -/
def eligFlex (root : Node) (q : Path) : Bool :=
  let isTraditionalAuth := hasEmailUsernameAt root q && hasPasswordAt root q
  let isMultipartAuth := hasEmailUsernameAt root q && !hasPasswordAt root q
  isTraditionalAuth || isMultipartAuth

/-- The strict variant's score (line 602): non-hidden input count, plus 100
for traditional-auth candidates. -/
def scoreFlex (root : Node) (q : Path) : Nat :=
  if hasEmailUsernameAt root q && hasPasswordAt root q then
    countNonHidden root q + 100
  else countNonHidden root q

/-- Is this ancestor one of the walk's terminators (lines 208-211 /
566-569)?  `tagName?.toLowerCase()` equal to body, html or head. -/
def stopTagAt (root : Node) (q : Path) : Bool :=
  match tagAt root q with
  | some t => strLower t = "body" || strLower t = "html" || strLower t = "head"
  | none => false

/-- The ancestor walk (lines 206-250 / 564-613), parameterized by the
variant's eligibility and score: while ancestors remain and `depth < 10`,
break on body/html/head, and update the best candidate only on a strictly
greater score (or when none is held yet). -/
def walkGo (root : Node) (elig : Node → Path → Bool) (sc : Node → Path → Nat) :
    List Path → Nat → Option Path → Nat → Option Path
  | [], _, best, _ => best
  | q :: rest, depth, best, bestScore =>
    if 10 ≤ depth then best
    else if stopTagAt root q then best
    else if elig root q then
      let score := sc root q
      if score > bestScore || best == none then
        walkGo root elig sc rest (depth + 1) (some q) score
      else walkGo root elig sc rest (depth + 1) best bestScore
    else walkGo root elig sc rest (depth + 1) best bestScore

/-- `bestParent` of the walk started from the first collected input's
parent. -/
def bestOf (root : Node) (elig : Node → Path → Bool) (sc : Node → Path → Nat)
    (firstPath : Path) : Option Path :=
  walkGo root elig sc (ancestorChain firstPath) 0 none 0

/-- `$finalParent = bestParent || allAuthInputs[0].element.parent()`
(lines 253 / 616).  A root-level input has no parent element in the tree
(cheerio's synthetic root container carries no markup either). -/
def containerOf (root : Node) (elig : Node → Path → Bool) (sc : Node → Path → Nat)
    (entries : List Entry) : Option Path :=
  match entries.head? with
  | none => none
  | some e0 =>
    match bestOf root elig sc e0.path with
    | some b => some b
    | none => match e0.path with | [] => none | _ :: _ => some e0.path.dropLast

/-! ## The AuthForm report and the two variants of
`parseHtmlForAuthForms` -/

/-- The externally visible result record. -/
structure AuthForm where
  hasPasswordInput : Bool
  formElement : Option String
  parentElement : Option String
  inputCount : Nat
  passwordInputs : List PwdDesc
  otherInputs : List OtherDesc
deriving DecidableEq

/-- The fully-drained negative result (lines 124-133 etc.). -/
def emptyAuthForm : AuthForm :=
  { hasPasswordInput := false, formElement := none, parentElement := none,
    inputCount := 0, passwordInputs := [], otherInputs := [] }

/-- `authForm.parentElement` from the chosen container (lines 255-256). -/
def parentMarkupOf (root : Node) (cont : Option Path) : Option String :=
  match cont with
  | some q => outerAt root q
  | none => none

/-- `authForm.inputCount` from the chosen container (lines 258-260). -/
def inputCountOf (root : Node) (cont : Option Path) : Nat :=
  match cont with
  | some q => countNonHidden root q
  | none => 0

/-- `authForm.formElement`: set only when the chosen container is literally
a form element (lines 262-265). -/
def formMarkupOf (root : Node) (cont : Option Path) : Option String :=
  match cont with
  | some q => if tagAt root q == some "form" then outerAt root q else none
  | none => none

/-- The permissive variant's candidate inputs (lines 64-120). -/
def permCands (root : Node) : List Path :=
  (inputPaths root).filter (permissiveCandidate root)

def entriesPerm (root : Node) : List Entry :=
  collectEntries root (permCands root)

def pwdListPerm (root : Node) : List PwdDesc :=
  dedupByKey tripleP (pwdPreOf (entriesPerm root))

def othListPerm (root : Node) : List OtherDesc :=
  dedupByKey tripleO (otherPreOf (entriesPerm root))

def containerPerm (root : Node) : Option Path :=
  containerOf root eligPerm scorePerm (entriesPerm root)

/-- The permissive `parseHtmlForAuthForms` (lines 61-286): a total function
on the document tree.  Detection is positive as soon as any candidate input
exists; there is no final acceptance gate in this variant. -/
def parsePermissive (root : Node) : AuthForm :=
  if (permCands root).isEmpty then emptyAuthForm
  else
    { hasPasswordInput := true
      formElement := formMarkupOf root (containerPerm root)
      parentElement := parentMarkupOf root (containerPerm root)
      inputCount := inputCountOf root (containerPerm root)
      passwordInputs := pwdListPerm root
      otherInputs := othListPerm root }

/-- `$('input[type="password"]')` of the strict variant (line 432). -/
def pwdSelStrict (root : Node) : List Path :=
  (inputPaths root).filter (fun p => attrAt root p "type" == some "password")

/-- The strict variant's candidate inputs (lines 436-471). -/
def strictCands (root : Node) : List Path :=
  (inputPaths root).filter (strictCandidate root)

def entriesStrict (root : Node) : List Entry :=
  collectEntries root (strictCands root)

def pwdListStrict (root : Node) : List PwdDesc :=
  dedupByKey tripleP (pwdPreOf (entriesStrict root))

def othListStrict (root : Node) : List OtherDesc :=
  dedupByKey tripleO (otherPreOf (entriesStrict root))

def containerStrict (root : Node) : Option Path :=
  containerOf root eligFlex scoreFlex (entriesStrict root)

/-- The final acceptance gate's per-descriptor identity check
(lines 651-661): type email, or name/id/placeholder containing an identity
keyword. -/
def gateEU (d : OtherDesc) : Bool :=
  let nm := strLower (d.name.getD "")
  let idv := strLower (d.id.getD "")
  let ph := strLower (d.placeholder.getD "")
  let ty := strLower d.type
  ty == "email" ||
    substr "email" nm || substr "username" nm || substr "user" nm ||
    substr "email" idv || substr "username" idv || substr "user" idv ||
    substr "email" ph || substr "username" ph

/-- The strict `parseHtmlForAuthForms` (lines 427-678): requires password
inputs or strong-context candidates up front, and runs the final acceptance
gate (lines 648-675) on the deduplicated lists before returning a positive
report. -/
def parseStrict (root : Node) : AuthForm :=
  if (pwdSelStrict root).isEmpty && (strictCands root).isEmpty then emptyAuthForm
  else if (pwdListStrict root).isEmpty && !((othListStrict root).any gateEU) then
    emptyAuthForm
  else
    { hasPasswordInput := true
      formElement := formMarkupOf root (containerStrict root)
      parentElement := parentMarkupOf root (containerStrict root)
      inputCount := inputCountOf root (containerStrict root)
      passwordInputs := pwdListStrict root
      otherInputs := othListStrict root }

/-! ## Properties of the deduplication idiom -/

theorem findIdx_congr_key {α κ : Type} [DecidableEq κ] (key : α → κ) (l : List α)
    {x y : α} (h : key x = key y) :
    l.findIdx (fun z => key z = key x) = l.findIdx (fun z => key z = key y) := by
  congr 1
  funext z
  simp [h]

theorem dedupByKey_sublist {α κ : Type} [DecidableEq κ] (key : α → κ) (l : List α) :
    (dedupByKey key l).Sublist l := by
  have h := (List.filter_sublist (l := l.enum)
    (p := fun ix => l.findIdx (fun y => key y = key ix.2) = ix.1)).map Prod.snd
  rwa [List.enum_map_snd] at h

theorem mem_dedupByKey_iff {α κ : Type} [DecidableEq κ] (key : α → κ) (l : List α)
    (x : α) :
    x ∈ dedupByKey key l ↔
      ∃ i, l[i]? = some x ∧ l.findIdx (fun y => key y = key x) = i := by
  unfold dedupByKey
  simp only [List.mem_map, List.mem_filter, Prod.exists]
  constructor
  · rintro ⟨i, a, ⟨hmem, hcond⟩, rfl⟩
    have hget := List.mem_enum_iff_get?.mp hmem
    simp only [List.get?_eq_getElem?] at hget
    exact ⟨i, hget, by simpa using hcond⟩
  · rintro ⟨i, hget, hfi⟩
    refine ⟨i, x, ⟨List.mem_enum_iff_get?.mpr ?_, by simpa using hfi⟩, rfl⟩
    simpa [List.get?_eq_getElem?] using hget

theorem dedupByKey_key_inj {α κ : Type} [DecidableEq κ] (key : α → κ) (l : List α)
    {x y : α} (hx : x ∈ dedupByKey key l) (hy : y ∈ dedupByKey key l)
    (hk : key x = key y) : x = y := by
  obtain ⟨i, hgi, hfi⟩ := (mem_dedupByKey_iff key l x).mp hx
  obtain ⟨j, hgj, hfj⟩ := (mem_dedupByKey_iff key l y).mp hy
  have hij : i = j := by rw [← hfi, ← hfj, findIdx_congr_key key l hk]
  rw [hij, hgj] at hgi
  exact (Option.some_inj.mp hgi).symm

theorem dedupByKey_repr {α κ : Type} [DecidableEq κ] (key : α → κ) (l : List α)
    {x : α} (hx : x ∈ l) : ∃ y ∈ dedupByKey key l, key y = key x := by
  have hex : ∃ z ∈ l, (fun z => decide (key z = key x)) z = true :=
    ⟨x, hx, by simp⟩
  have hlt := List.findIdx_lt_length_of_exists hex
  set i := l.findIdx (fun z => decide (key z = key x)) with hi
  have hpy : decide (key l[i] = key x) = true := List.findIdx_getElem (w := hlt)
  have hky : key l[i] = key x := of_decide_eq_true hpy
  refine ⟨l[i], ?_, hky⟩
  rw [mem_dedupByKey_iff]
  refine ⟨i, by simp, ?_⟩
  rw [findIdx_congr_key key l hky]

theorem dedupByKey_first {α κ : Type} [DecidableEq κ] (key : α → κ) (l : List α)
    {y : α} (hy : y ∈ dedupByKey key l) :
    ∃ i : Nat, l[i]? = some y ∧
      ∀ (j : Nat) (z : α), j < i → l[j]? = some z → key z ≠ key y := by
  obtain ⟨i, hgi, hfi⟩ := (mem_dedupByKey_iff key l y).mp hy
  refine ⟨i, hgi, fun j z hj hz => ?_⟩
  have hjl : j < l.length := by
    have := List.getElem?_eq_some.mp hz
    exact this.1
  have hfalse : decide (key l[j] = key y) = false := by
    have := List.not_of_lt_findIdx (p := fun w => decide (key w = key y)) (i := j)
      (by omega : j < l.findIdx fun w => decide (key w = key y))
    simpa using this
  have hzz : l[j] = z := by
    obtain ⟨h, he⟩ := List.getElem?_eq_some.mp hz
    exact he
  rw [← hzz]
  exact of_decide_eq_false hfalse

theorem dedupByKey_ne_nil {α κ : Type} [DecidableEq κ] (key : α → κ) {l : List α}
    (h : l ≠ []) : dedupByKey key l ≠ [] := by
  obtain ⟨x, hx⟩ := List.exists_mem_of_ne_nil l h
  obtain ⟨y, hy, _⟩ := dedupByKey_repr key l hx
  intro hnil
  rw [hnil] at hy
  exact (List.not_mem_nil y) hy

/-! ## Characterising the ancestor walk -/

/-- The ancestors the loop actually examines: at most 10, cut at the first
body/html/head. -/
def visitedAncestors (root : Node) (p : Path) : List Path :=
  ((ancestorChain p).take 10).takeWhile (fun q => !stopTagAt root q)

/-- The examined ancestors a variant's walk treats as container candidates. -/
def walkCands (root : Node) (elig : Node → Path → Bool) (p : Path) : List Path :=
  (visitedAncestors root p).filter (elig root)

/-- The walk's best-candidate fold, restricted to the candidate list. -/
def goCands (sc : Path → Nat) : List Path → Option Path → Nat → Option Path
  | [], best, _ => best
  | q :: rest, best, bestScore =>
    if sc q > bestScore || best == none then goCands sc rest (some q) (sc q)
    else goCands sc rest best bestScore

theorem walkGo_eq_goCands (root : Node) (elig : Node → Path → Bool)
    (sc : Node → Path → Nat) :
    ∀ (l : List Path) (depth : Nat) (best : Option Path) (bs : Nat),
    walkGo root elig sc l depth best bs =
      goCands (sc root)
        (((l.take (10 - depth)).takeWhile (fun q => !stopTagAt root q)).filter
          (elig root)) best bs := by
  intro l
  induction l with
  | nil => intro depth best bs; simp [walkGo, goCands]
  | cons q rest ih =>
    intro depth best bs
    have hunfold : walkGo root elig sc (q :: rest) depth best bs =
        (if 10 ≤ depth then best
         else if stopTagAt root q then best
         else if elig root q then
           (if sc root q > bs || best == none then
              walkGo root elig sc rest (depth + 1) (some q) (sc root q)
            else walkGo root elig sc rest (depth + 1) best bs)
         else walkGo root elig sc rest (depth + 1) best bs) := rfl
    rw [hunfold]
    by_cases h10 : 10 ≤ depth
    · rw [if_pos h10, Nat.sub_eq_zero_of_le h10]
      simp [goCands]
    · rw [if_neg h10, show 10 - depth = (10 - (depth + 1)) + 1 from by omega,
        List.take_succ_cons]
      by_cases hstop : stopTagAt root q = true
      · rw [if_pos hstop, List.takeWhile_cons_of_neg (by simp [hstop])]
        simp [goCands]
      · have hsf : stopTagAt root q = false := by simpa using hstop
        rw [if_neg hstop, List.takeWhile_cons_of_pos (by simp [hsf])]
        by_cases helig : elig root q = true
        · rw [if_pos helig, List.filter_cons_of_pos helig]
          have hgo : goCands (sc root)
              (q :: ((rest.take (10 - (depth + 1))).takeWhile
                (fun r => !stopTagAt root r)).filter (elig root)) best bs =
              (if sc root q > bs || best == none then
                 goCands (sc root)
                   (((rest.take (10 - (depth + 1))).takeWhile
                     (fun r => !stopTagAt root r)).filter (elig root))
                   (some q) (sc root q)
               else goCands (sc root)
                   (((rest.take (10 - (depth + 1))).takeWhile
                     (fun r => !stopTagAt root r)).filter (elig root))
                   best bs) := rfl
          rw [hgo]
          by_cases hcmp : (sc root q > bs || best == none) = true
          · rw [if_pos hcmp, if_pos hcmp]
            exact ih (depth + 1) (some q) (sc root q)
          · rw [if_neg hcmp, if_neg hcmp]
            exact ih (depth + 1) best bs
        · rw [if_neg helig, List.filter_cons_of_neg (by simpa using helig)]
          exact ih (depth + 1) best bs

/-- The fold keeps the first candidate attaining the maximal score: the
result splits the scanned list into strictly-smaller-scored elements before
it and no-greater-scored elements after it. -/
theorem goCands_split (sc : Path → Nat) :
    ∀ (cs : List Path) (b : Path),
    ∃ c l₁ l₂, goCands sc cs (some b) (sc b) = some c ∧
      b :: cs = l₁ ++ c :: l₂ ∧ (∀ r ∈ l₁, sc r < sc c) ∧
      (∀ r ∈ l₂, sc r ≤ sc c) := by
  intro cs
  induction cs with
  | nil =>
    intro b
    exact ⟨b, [], [], rfl, rfl, by simp, by simp⟩
  | cons q rest ih =>
    intro b
    by_cases hq : sc q > sc b
    · have hstep : goCands sc (q :: rest) (some b) (sc b) =
        goCands sc rest (some q) (sc q) := by
        simp [goCands, hq]
      obtain ⟨c, l₁, l₂, hres, hdec, h1, h2⟩ := ih q
      have hbc : sc b < sc c := by
        cases l₁ with
        | nil =>
          rw [List.nil_append] at hdec
          have hcq : q = c := (List.cons_eq_cons.mp hdec).1
          rw [← hcq]
          exact hq
        | cons x l₁t =>
          have hx : q = x := (List.cons_eq_cons.mp hdec).1
          have hxc : sc x < sc c := h1 x (List.mem_cons_self x l₁t)
          rw [← hx] at hxc
          omega
      refine ⟨c, b :: l₁, l₂, by rw [hstep]; exact hres, by simpa using hdec,
        ?_, h2⟩
      intro r hr
      rcases List.mem_cons.mp hr with hr | hr
      · subst hr; exact hbc
      · exact h1 r hr
    · have hstep : goCands sc (q :: rest) (some b) (sc b) =
        goCands sc rest (some b) (sc b) := by
        simp [goCands, hq]
      obtain ⟨c, l₁, l₂, hres, hdec, h1, h2⟩ := ih b
      cases l₁ with
      | nil =>
        rw [List.nil_append] at hdec
        obtain ⟨hcb, hl₂⟩ := List.cons_eq_cons.mp hdec
        subst hcb
        refine ⟨b, [], q :: rest, by rw [hstep]; exact hres, by simp, by simp,
          ?_⟩
        intro r hr
        rcases List.mem_cons.mp hr with hr | hr
        · subst hr; omega
        · exact h2 r (hl₂ ▸ hr)
      | cons x l₁t =>
        obtain ⟨hx, hrest⟩ := List.cons_eq_cons.mp hdec
        subst hx
        have hbc : sc b < sc c := h1 b (List.mem_cons_self b l₁t)
        refine ⟨c, b :: q :: l₁t, l₂, by rw [hstep]; exact hres, by
          simp [hrest], ?_, h2⟩
        intro r hr
        rcases List.mem_cons.mp hr with hr | hr
        · subst hr; exact hbc
        rcases List.mem_cons.mp hr with hr | hr
        · subst hr; omega
        · exact h1 r (List.mem_cons_of_mem b hr)


/-- Crossing from the transcribed loop to the candidate-list view. -/
theorem bestOf_eq (root : Node) (elig : Node → Path → Bool)
    (sc : Node → Path → Nat) (p : Path) :
    bestOf root elig sc p = goCands (sc root) (walkCands root elig p) none 0 := by
  unfold bestOf walkCands visitedAncestors
  rw [walkGo_eq_goCands]

theorem bestOf_of_walkCands_eq_nil (root : Node) (elig : Node → Path → Bool)
    (sc : Node → Path → Nat) (p : Path) (h : walkCands root elig p = []) :
    bestOf root elig sc p = none := by
  rw [bestOf_eq, h]
  rfl

/-- On a non-empty candidate list the walk returns the first candidate of
maximal score. -/
theorem bestOf_split (root : Node) (elig : Node → Path → Bool)
    (sc : Node → Path → Nat) (p : Path) (h : walkCands root elig p ≠ []) :
    ∃ c l₁ l₂, bestOf root elig sc p = some c ∧
      walkCands root elig p = l₁ ++ c :: l₂ ∧
      (∀ r ∈ l₁, sc root r < sc root c) ∧
      (∀ r ∈ l₂, sc root r ≤ sc root c) := by
  rw [bestOf_eq]
  rcases hwc : walkCands root elig p with _ | ⟨q, cs⟩
  · exact absurd hwc h
  · have hstep : goCands (sc root) (q :: cs) none 0 =
      goCands (sc root) cs (some q) (sc root q) := by
      simp [goCands]
    rw [hstep]
    obtain ⟨c, l₁, l₂, hres, hdec, h1, h2⟩ := goCands_split (sc root) cs q
    exact ⟨c, l₁, l₂, hres, hdec, h1, h2⟩

theorem bestOf_mem (root : Node) (elig : Node → Path → Bool)
    (sc : Node → Path → Nat) (p : Path) {c : Path}
    (h : bestOf root elig sc p = some c) : c ∈ walkCands root elig p := by
  by_cases hwc : walkCands root elig p = []
  · rw [bestOf_of_walkCands_eq_nil root elig sc p hwc] at h
    cases h
  · obtain ⟨d, l₁, l₂, hres, hdec, _, _⟩ := bestOf_split root elig sc p hwc
    rw [hres] at h
    obtain rfl := Option.some_inj.mp h
    rw [hdec]
    exact List.mem_append.mpr (Or.inr (List.mem_cons_self _ l₂))

theorem mem_walkCands_iff (root : Node) (elig : Node → Path → Bool) (p q : Path) :
    q ∈ walkCands root elig p ↔
      q ∈ visitedAncestors root p ∧ elig root q = true := by
  unfold walkCands
  exact List.mem_filter

theorem mem_visitedAncestors_not_stop (root : Node) (p q : Path)
    (h : q ∈ visitedAncestors root p) : stopTagAt root q = false := by
  unfold visitedAncestors at h
  have := List.mem_takeWhile_imp h
  simpa using this

theorem mem_visitedAncestors_take (root : Node) (p q : Path)
    (h : q ∈ visitedAncestors root p) : q ∈ (ancestorChain p).take 10 := by
  unfold visitedAncestors at h
  exact ( List.takeWhile_prefix _).sublist.subset h

/-- Where the chosen container can come from: a walk candidate, or the first
collected input's immediate parent. -/
theorem containerOf_cases (root : Node) (elig : Node → Path → Bool)
    (sc : Node → Path → Nat) (entries : List Entry) {q : Path}
    (h : containerOf root elig sc entries = some q) :
    ∃ e0 tail, entries = e0 :: tail ∧
      (q ∈ walkCands root elig e0.path ∨
        (bestOf root elig sc e0.path = none ∧ e0.path ≠ [] ∧
          q = e0.path.dropLast)) := by
  rcases hent : entries with _ | ⟨e0, tail⟩
  · rw [hent] at h
    simp [containerOf] at h
  · rw [hent] at h
    have h' : (match bestOf root elig sc e0.path with
        | some b => some b
        | none =>
          match e0.path with
          | [] => none
          | _ :: _ => some e0.path.dropLast) = some q := h
    refine ⟨e0, tail, rfl, ?_⟩
    rcases hb : bestOf root elig sc e0.path with _ | b
    · rw [hb] at h'
      rcases hp : e0.path with _ | ⟨i, pt⟩
      · rw [hp] at h'
        simp at h'
      · rw [hp] at h'
        right
        refine ⟨rfl, by simp, ?_⟩
        simp at h'
        exact h'.symm
    · rw [hb] at h'
      left
      have hq : b = q := by simpa using h'
      rw [← hq]
      exact bestOf_mem root elig sc e0.path hb

/-! ## Properties of the collection loop -/

theorem attrAt_nodeAtD (root : Node) (p : Path) (a : String) :
    attrAt root p a = (nodeAtD root p).attrOf a := by
  unfold attrAt nodeAtD
  cases root.nodeAt p <;> simp [Node.attrOf]

/-- Every collected entry is the entry of one of the scanned candidates. -/
theorem collectGo_shape (root : Node) :
    ∀ (todo : List Path) (idx : Nat) (processed : List String),
    ∀ e ∈ collectGo root idx processed todo,
      ∃ p, p ∈ todo ∧ e = mkEntry p (nodeAtD root p) := by
  intro todo
  induction todo with
  | nil => intro idx processed e he; cases he
  | cons p rest ih =>
    intro idx processed e he
    by_cases hk : processed.contains (mkKey (nodeAtD root p) idx)
    · have hred : collectGo root idx processed (p :: rest) =
        collectGo root (idx + 1) processed rest := by
        simp only [collectGo, hk, if_pos]
      rw [hred] at he
      obtain ⟨q, hq, hqe⟩ := ih (idx + 1) processed e he
      exact ⟨q, List.mem_cons_of_mem p hq, hqe⟩
    · have hred : collectGo root idx processed (p :: rest) =
        mkEntry p (nodeAtD root p) ::
          collectGo root (idx + 1) (mkKey (nodeAtD root p) idx :: processed) rest := by
        simp only [collectGo, hk, if_neg]
        simp [hk]
      rw [hred] at he
      rcases List.mem_cons.mp he with he | he
      · exact ⟨p, List.mem_cons_self p rest, he⟩
      · obtain ⟨q, hq, hqe⟩ := ih (idx + 1) _ e he
        exact ⟨q, List.mem_cons_of_mem p hq, hqe⟩

/-- The first candidate is never skipped: it becomes the first entry. -/
theorem collectEntries_cons (root : Node) (p : Path) (rest : List Path) :
    collectEntries root (p :: rest) =
      mkEntry p (nodeAtD root p) ::
        collectGo root 1 [mkKey (nodeAtD root p) 0] rest := rfl

/-- The selector-key collision-freedom proviso: among the enumerated
candidates, equal synthesized keys never pair a password-typed input with a
non-password one.  Adversarial attribute values embedding the key's
delimiter characters are the only way to violate it. -/
def keyCollisionFree (root : Node) (cands : List Path) : Prop :=
  ∀ x ∈ cands.enum, ∀ y ∈ cands.enum,
    mkKey (nodeAtD root x.2) x.1 = mkKey (nodeAtD root y.2) y.1 →
    ((nodeAtD root x.2).attrOf "type" = some "password" ↔
      (nodeAtD root y.2).attrOf "type" = some "password")

instance keyCollisionFreeDec (root : Node) (cands : List Path) :
    Decidable (keyCollisionFree root cands) := by
  unfold keyCollisionFree
  infer_instance

theorem getElem?_append_mid {α : Type} (l₁ : List α) (x : α) (l₂ : List α) :
    (l₁ ++ x :: l₂)[l₁.length]? = some x := by
  rw [List.getElem?_append_right (Nat.le_refl l₁.length)]
  simp

/-- Under the collision-freedom proviso, a password-typed candidate always
leaves a password-typed entry in the collected list. -/
theorem collectGo_pwd_exists (root : Node) (full : List Path)
    (H : keyCollisionFree root full) :
    ∀ (todo pre : List Path) (processed : List String),
    full = pre ++ todo →
    (∀ k ∈ processed, ∃ (j : Nat) (q : Path), j < pre.length ∧
      full[j]? = some q ∧ k = mkKey (nodeAtD root q) j ∧
      (nodeAtD root q).attrOf "type" ≠ some "password") →
    (∃ q ∈ todo, (nodeAtD root q).attrOf "type" = some "password") →
    ∃ e ∈ collectGo root pre.length processed todo,
      e.node.attrOf "type" = some "password" := by
  intro todo
  induction todo with
  | nil =>
    intro pre processed _ _ hex
    obtain ⟨q, hq, _⟩ := hex
    cases hq
  | cons p rest ih =>
    intro pre processed hfull hproc hex
    by_cases hpw : (nodeAtD root p).attrOf "type" = some "password"
    · by_cases hk : processed.contains (mkKey (nodeAtD root p) pre.length)
      · exfalso
        have hkmem : mkKey (nodeAtD root p) pre.length ∈ processed := by
          simpa using hk
        obtain ⟨j, q, hj, hjq, hkeq, hnq⟩ := hproc _ hkmem
        have hx : (j, q) ∈ full.enum := by
          rw [List.mem_enum_iff_get?]
          simpa [List.get?_eq_getElem?] using hjq
        have hy : (pre.length, p) ∈ full.enum := by
          rw [List.mem_enum_iff_get?]
          simp only [List.get?_eq_getElem?]
          rw [hfull]
          exact getElem?_append_mid pre p rest
        have hiff := H (j, q) hx (pre.length, p) hy (by rw [← hkeq])
        exact hnq (hiff.mpr hpw)
      · have hnm : mkKey (nodeAtD root p) pre.length ∉ processed := by
          simpa using hk
        have hred : collectGo root pre.length processed (p :: rest) =
          mkEntry p (nodeAtD root p) ::
            collectGo root (pre.length + 1)
              (mkKey (nodeAtD root p) pre.length :: processed) rest := by
          simp [collectGo, hnm]
        rw [hred]
        exact ⟨mkEntry p (nodeAtD root p),
          List.mem_cons_self _ _, hpw⟩
    · have hex2 : ∃ q ∈ rest, (nodeAtD root q).attrOf "type" = some "password" := by
        obtain ⟨q, hq, hqq⟩ := hex
        rcases List.mem_cons.mp hq with hq | hq
        · exact absurd (hq ▸ hqq) hpw
        · exact ⟨q, hq, hqq⟩
      have hfull2 : full = (pre ++ [p]) ++ rest := by
        rw [hfull, List.append_assoc]
        rfl
      have hlen : (pre ++ [p]).length = pre.length + 1 := by simp
      by_cases hk : processed.contains (mkKey (nodeAtD root p) pre.length)
      · have hred : collectGo root pre.length processed (p :: rest) =
          collectGo root (pre.length + 1) processed rest := by
          simp only [collectGo, hk, if_pos]
        rw [hred, show pre.length + 1 = (pre ++ [p]).length from hlen.symm]
        refine ih (pre ++ [p]) processed hfull2 ?_ hex2
        intro k hkk
        obtain ⟨j, q, hj, hjq, hkeq, hnq⟩ := hproc k hkk
        exact ⟨j, q, by simp; omega, hjq, hkeq, hnq⟩
      · have hnm : mkKey (nodeAtD root p) pre.length ∉ processed := by
          simpa using hk
        have hred : collectGo root pre.length processed (p :: rest) =
          mkEntry p (nodeAtD root p) ::
            collectGo root (pre.length + 1)
              (mkKey (nodeAtD root p) pre.length :: processed) rest := by
          simp [collectGo, hnm]
        rw [hred]
        have hrec := ih (pre ++ [p])
          (mkKey (nodeAtD root p) pre.length :: processed) hfull2 ?_ hex2
        · obtain ⟨e, he, hpe⟩ := hrec
          rw [hlen] at he
          exact ⟨e, List.mem_cons_of_mem _ he, hpe⟩
        · intro k hkk
          rcases List.mem_cons.mp hkk with hkk | hkk
          · refine ⟨pre.length, p, by simp, ?_, hkk, hpw⟩
            rw [hfull]
            exact getElem?_append_mid pre p rest
          · obtain ⟨j, q, hj, hjq, hkeq, hnq⟩ := hproc k hkk
            exact ⟨j, q, by simp; omega, hjq, hkeq, hnq⟩

/-! ## Bridging facts for password-typed inputs -/

theorem nodeAt_of_attrAt {root : Node} {p : Path} {a : String} {v : String}
    (h : attrAt root p a = some v) :
    ∃ n, root.nodeAt p = some n ∧ n.attrOf a = some v := by
  unfold attrAt at h
  rcases hn : root.nodeAt p with _ | n
  · rw [hn] at h; cases h
  · rw [hn] at h; exact ⟨n, rfl, h⟩

/-- A literally password-typed input passes the permissive filter. -/
theorem permissiveCandidate_of_pwd (root : Node) (p : Path)
    (h : attrAt root p "type" = some "password") :
    permissiveCandidate root p = true := by
  obtain ⟨n, hn, ha⟩ := nodeAt_of_attrAt h
  unfold permissiveCandidate
  rw [hn]
  simp [ha]

/-- A literally password-typed input passes the strict filter. -/
theorem strictCandidate_of_pwd (root : Node) (p : Path)
    (h : attrAt root p "type" = some "password") :
    strictCandidate root p = true := by
  obtain ⟨n, hn, ha⟩ := nodeAt_of_attrAt h
  unfold strictCandidate
  rw [hn]
  simp [ha]

/-! ## Demonstration documents

`demoForm` is a plain login form; the others realise the corner cases of
individual claims. -/

/-- A traditional login form wrapped the way `cheerio.load` normalises
documents. -/
def demoForm : Node :=
  .elem "html" [] [
    .elem "head" [] [],
    .elem "body" [] [
      .elem "form" [] [
        .elem "input" [("type", "email"), ("name", "e")] [],
        .elem "input" [("type", "password"), ("name", "p")] []]]]

/-! ## C1 -/

/-- C1: for every document tree (hence for every input string, since the
loader is total), each variant of `parseHtmlForAuthForms` terminates with a
well-formed `AuthForm` that is either the fully-drained negative default or
positive; in particular a report with `hasPasswordInput = false` is exactly
the negative-default record. -/
theorem c1_total_negative_default (root : Node) :
    (parsePermissive root = emptyAuthForm ∨
      (parsePermissive root).hasPasswordInput = true) ∧
    (parseStrict root = emptyAuthForm ∨
      (parseStrict root).hasPasswordInput = true) ∧
    ((parsePermissive root).hasPasswordInput = false →
      parsePermissive root = emptyAuthForm) ∧
    ((parseStrict root).hasPasswordInput = false →
      parseStrict root = emptyAuthForm) := by
  have hperm : parsePermissive root = emptyAuthForm ∨
      (parsePermissive root).hasPasswordInput = true := by
    unfold parsePermissive
    by_cases h : (permCands root).isEmpty = true <;> simp [h]
  have hstrict : parseStrict root = emptyAuthForm ∨
      (parseStrict root).hasPasswordInput = true := by
    unfold parseStrict
    by_cases h1 : ((pwdSelStrict root).isEmpty && (strictCands root).isEmpty) = true
    · simp [h1]
    · by_cases h2 : ((pwdListStrict root).isEmpty &&
        !((othListStrict root).any gateEU)) = true <;> simp [h1, h2]
  refine ⟨hperm, hstrict, ?_, ?_⟩
  · intro hf
    rcases hperm with h | h
    · exact h
    · rw [h] at hf; cases hf
  · intro hf
    rcases hstrict with h | h
    · exact h
    · rw [h] at hf; cases hf

/-! ## C3 -/

/-- A permissive-variant candidate admitted purely by textual context
("access" in the parent's text): not password-typed and carrying no
identity keyword. -/
def c3doc : Node :=
  .elem "html" [] [
    .elem "head" [] [],
    .elem "body" [] [
      .elem "div" [] [
        .text "access",
        .elem "input" [("type", "text"), ("name", "q")] []]]]

/-- C3 counterexample: the permissive variant returns a positive report on
`c3doc` although its password list is empty and no other-input descriptor
passes the identity-keyword check — the final acceptance gate does not run
in that variant. -/
theorem c3_counterexample :
    (parsePermissive c3doc).hasPasswordInput = true ∧
    (parsePermissive c3doc).passwordInputs = [] ∧
    (parsePermissive c3doc).otherInputs.any gateEU = false := by
  decide

/-- C3 amended: only the strict variant runs the final acceptance gate; in
that variant a positive report implies a non-empty deduplicated password
list or an other-input descriptor whose type is email or whose
name/id/placeholder contains email, username or user.  (The permissive
variant has no such gate and can return a positive report with neither, as
the counterexample shows.) -/
theorem c3_amended_strict_gate (root : Node)
    (h : (parseStrict root).hasPasswordInput = true) :
    (parseStrict root).passwordInputs ≠ [] ∨
      (parseStrict root).otherInputs.any gateEU = true := by
  unfold parseStrict at h ⊢
  by_cases h1 : ((pwdSelStrict root).isEmpty && (strictCands root).isEmpty) = true
  · rw [if_pos h1] at h
    simp [emptyAuthForm] at h
  · by_cases h2 : ((pwdListStrict root).isEmpty &&
      !((othListStrict root).any gateEU)) = true
    · rw [if_neg h1, if_pos h2] at h
      simp [emptyAuthForm] at h
    · rw [if_neg h1, if_neg h2]
      simp only [Bool.and_eq_true, Bool.not_eq_true', not_and_or] at h2
      rcases h2 with h2 | h2
      · left
        have hne : pwdListStrict root ≠ [] := by
          intro hnil
          exact h2 (by simp [hnil])
        simpa using hne
      · right
        simpa using h2

/-- C3 witness: the amended gate property, discharged on the plain login
form. -/
theorem c3_amended_witness :
    (parseStrict demoForm).hasPasswordInput = true ∧
      ((parseStrict demoForm).passwordInputs ≠ [] ∨
        (parseStrict demoForm).otherInputs.any gateEU = true) :=
  ⟨by decide, c3_amended_strict_gate demoForm (by decide)⟩

/-! ## First collected input -/

/-- The position of `allAuthInputs[0].element` in the permissive variant. -/
def firstEntryPathPerm (root : Node) : Option Path :=
  ((entriesPerm root).head?).map (fun e => e.path)

/-- The position of `allAuthInputs[0].element` in the strict variant. -/
def firstEntryPathStrict (root : Node) : Option Path :=
  ((entriesStrict root).head?).map (fun e => e.path)

theorem firstEntryPath_head {entries : List Entry} {p : Path}
    (h : (entries.head?).map (fun e => e.path) = some p) :
    ∃ e0 tail, entries = e0 :: tail ∧ e0.path = p := by
  rcases hent : entries with _ | ⟨e0, tail⟩
  · rw [hent] at h; cases h
  · rw [hent] at h
    simp only [List.head?_cons, Option.map_some'] at h
    exact ⟨e0, tail, rfl, Option.some_inj.mp h⟩

/-! ## C9 -/

/-- A password input sitting directly under `body`: the walk breaks at
`body` at once, and the fallback container is `body` itself. -/
def c9doc : Node :=
  .elem "html" [] [
    .elem "head" [] [],
    .elem "body" [] [
      .elem "input" [("type", "password")] []]]

/-- C9 counterexample: on `c9doc` the permissive report is positive and its
`parentElement` is exactly the outer markup of the `body` element — the
fallback to the first candidate's immediate parent can select `body`. -/
theorem c9_counterexample :
    (parsePermissive c9doc).hasPasswordInput = true ∧
    (parsePermissive c9doc).parentElement =
      some (Node.outerHTML
        (.elem "body" [] [.elem "input" [("type", "password")] []])) := by
  decide

/-- C9 amended: the scored ancestor walk stops at body/html/head and never
selects them as `bestParent`, in either variant; but the reported container
may still be such an element through the fallback to the first candidate's
immediate parent (as the counterexample shows with `body`). -/
theorem c9_amended_walk_never_stop_tag (root : Node) (p q : Path) :
    (bestOf root eligPerm scorePerm p = some q → stopTagAt root q = false) ∧
    (bestOf root eligFlex scoreFlex p = some q → stopTagAt root q = false) ∧
    (containerPerm root = some q →
      stopTagAt root q = false ∨
        ∃ a, firstEntryPathPerm root = some a ∧ q = a.dropLast) ∧
    (containerStrict root = some q →
      stopTagAt root q = false ∨
        ∃ a, firstEntryPathStrict root = some a ∧ q = a.dropLast) := by
  have hbest : ∀ (elig : Node → Path → Bool) (sc : Node → Path → Nat),
      bestOf root elig sc p = some q → stopTagAt root q = false := by
    intro elig sc h
    have hm := bestOf_mem root elig sc p h
    have hv := (mem_walkCands_iff root elig p q).mp hm
    exact mem_visitedAncestors_not_stop root p q hv.1
  have hcont : ∀ (elig : Node → Path → Bool) (sc : Node → Path → Nat)
      (entries : List Entry),
      containerOf root elig sc entries = some q →
      stopTagAt root q = false ∨
        ∃ a, ((entries.head?).map (fun e => e.path)) = some a ∧
          q = a.dropLast := by
    intro elig sc entries h
    obtain ⟨e0, tail, hent, hcase⟩ := containerOf_cases root elig sc entries h
    rcases hcase with hc | ⟨_, _, hq⟩
    · left
      have hv := (mem_walkCands_iff root elig e0.path q).mp hc
      exact mem_visitedAncestors_not_stop root e0.path q hv.1
    · right
      exact ⟨e0.path, by rw [hent]; simp, hq⟩
  exact ⟨hbest eligPerm scorePerm, hbest eligFlex scoreFlex,
    hcont eligPerm scorePerm (entriesPerm root),
    hcont eligFlex scoreFlex (entriesStrict root)⟩

/-! ## C8 -/

/-- Nesting helper for the depth-cap scenario. -/
def nestDivs : Nat → Node → Node
  | 0, n => n
  | k + 1, n => .elem "div" [] [nestDivs k n]

/-- A qualifying `form` that sits 13 parent steps above the first candidate
input: twelve plain `div` wrappers lie between the password input and the
form, so the walk's 10-ancestor cap expires among the divs. -/
def deepDoc : Node :=
  .elem "html" [] [
    .elem "head" [] [],
    .elem "body" [] [
      .elem "form" [] [
        nestDivs 12 (.elem "input" [("type", "password")] []),
        .elem "input" [("type", "email"), ("name", "email")] []]]]

/-- The password input's position inside `deepDoc`. -/
def deepPwdPath : Path := [1, 0] ++ List.replicate 13 0

/-- The `form` element's position inside `deepDoc`. -/
def deepFormPath : Path := [1, 0]

/-- C8: the walk examines at most the first 10 ancestors of the first
candidate input — every chosen container lies within them — and when no
examined ancestor qualifies, the container falls back to the first
candidate's immediate parent (non-null whenever the candidate is not the
tree root). -/
theorem c8_depth_cap_and_fallback (root : Node) :
    (∀ p q, firstEntryPathPerm root = some p → containerPerm root = some q →
      q ∈ (ancestorChain p).take 10) ∧
    (∀ p q, firstEntryPathStrict root = some p → containerStrict root = some q →
      q ∈ (ancestorChain p).take 10) ∧
    (∀ p, firstEntryPathPerm root = some p → p ≠ [] →
      walkCands root eligPerm p = [] →
      containerPerm root = some p.dropLast) ∧
    (∀ p, firstEntryPathStrict root = some p → p ≠ [] →
      walkCands root eligFlex p = [] →
      containerStrict root = some p.dropLast) := by
  have hdropLast_mem : ∀ p : Path, p ≠ [] →
      p.dropLast ∈ (ancestorChain p).take 10 := by
    intro p hp
    rw [ancestorChain_eq_cons p hp]
    simp [List.take_succ_cons]
  have hcap : ∀ (elig : Node → Path → Bool) (sc : Node → Path → Nat)
      (entries : List Entry) (p q : Path),
      ((entries.head?).map (fun e => e.path)) = some p →
      containerOf root elig sc entries = some q →
      q ∈ (ancestorChain p).take 10 := by
    intro elig sc entries p q hfst hcont
    obtain ⟨e0, tail, hent, hpe⟩ := firstEntryPath_head hfst
    obtain ⟨e1, tail1, hent1, hcase⟩ := containerOf_cases root elig sc entries hcont
    have he : e1 = e0 := by
      rw [hent] at hent1
      exact ((List.cons_eq_cons.mp hent1).1).symm
    subst he
    rcases hcase with hc | ⟨_, hne, hq⟩
    · have hv := (mem_walkCands_iff root elig e1.path q).mp hc
      have := mem_visitedAncestors_take root e1.path q hv.1
      rwa [hpe] at this
    · rw [hq, ← hpe]
      exact hdropLast_mem e1.path hne
  have hfb : ∀ (elig : Node → Path → Bool) (sc : Node → Path → Nat)
      (entries : List Entry) (p : Path),
      ((entries.head?).map (fun e => e.path)) = some p → p ≠ [] →
      walkCands root elig p = [] →
      containerOf root elig sc entries = some p.dropLast := by
    intro elig sc entries p hfst hp hwc
    obtain ⟨e0, tail, hent, hpe⟩ := firstEntryPath_head hfst
    have hbest : bestOf root elig sc e0.path = none := by
      rw [hpe]
      exact bestOf_of_walkCands_eq_nil root elig sc p hwc
    rw [hent]
    have h' : containerOf root elig sc (e0 :: tail) =
        (match bestOf root elig sc e0.path with
         | some b => some b
         | none =>
           match e0.path with
           | [] => none
           | _ :: _ => some e0.path.dropLast) := rfl
    rw [h', hbest]
    rcases hp2 : e0.path with _ | ⟨i, pt⟩
    · rw [hp2] at hpe
      exact absurd hpe.symm (by simpa using hp)
    · rw [← hp2, hpe]
      have : p = i :: pt := by rw [← hpe, hp2]
      simp [hp2, this]
  exact ⟨fun p q => hcap eligPerm scorePerm (entriesPerm root) p q,
    fun p q => hcap eligFlex scoreFlex (entriesStrict root) p q,
    fun p => hfb eligPerm scorePerm (entriesPerm root) p,
    fun p => hfb eligFlex scoreFlex (entriesStrict root) p⟩

/-- C8 witness: in `deepDoc` the qualifying form lies beyond the 10-ancestor
cap: no examined ancestor qualifies in either variant, the fallback fires,
and the chosen container is the innermost `div`, not the form. -/
theorem c8_witness :
    (firstEntryPathPerm deepDoc = some deepPwdPath ∧ deepPwdPath ≠ [] ∧
      walkCands deepDoc eligPerm deepPwdPath = [] ∧
      eligFlex deepDoc deepFormPath = true ∧
      deepFormPath ∉ (ancestorChain deepPwdPath).take 10) ∧
    containerPerm deepDoc = some deepPwdPath.dropLast :=
  ⟨by decide,
    (c8_depth_cap_and_fallback deepDoc).2.2.1 deepPwdPath (by decide) (by decide)
      (by decide)⟩

/-! ## Report-list helpers -/

theorem parsePerm_lists (root : Node) :
    ((parsePermissive root).passwordInputs = pwdListPerm root ∧
      (parsePermissive root).otherInputs = othListPerm root) ∨
    ((parsePermissive root).passwordInputs = [] ∧
      (parsePermissive root).otherInputs = []) := by
  unfold parsePermissive
  by_cases h : (permCands root).isEmpty = true
  · right; simp [h, emptyAuthForm]
  · left; simp [h]

theorem parseStrict_lists (root : Node) :
    ((parseStrict root).passwordInputs = pwdListStrict root ∧
      (parseStrict root).otherInputs = othListStrict root) ∨
    ((parseStrict root).passwordInputs = [] ∧
      (parseStrict root).otherInputs = []) := by
  unfold parseStrict
  by_cases h1 : ((pwdSelStrict root).isEmpty && (strictCands root).isEmpty) = true
  · right; simp [h1, emptyAuthForm]
  · by_cases h2 : ((pwdListStrict root).isEmpty &&
      !((othListStrict root).any gateEU)) = true
    · right; simp [h1, h2, emptyAuthForm]
    · left; simp [h1, h2]

theorem mem_pwdPre_iff {entries : List Entry} {d : PwdDesc} :
    d ∈ pwdPreOf entries ↔
      ∃ e ∈ entries, entryIsPwd e = true ∧ d = mkPwdDesc e := by
  unfold pwdPreOf
  rw [List.mem_filterMap]
  constructor
  · rintro ⟨e, he, hfe⟩
    by_cases hp : entryIsPwd e = true
    · rw [if_pos hp] at hfe
      exact ⟨e, he, hp, (Option.some_inj.mp hfe).symm⟩
    · rw [if_neg hp] at hfe
      cases hfe
  · rintro ⟨e, he, hp, rfl⟩
    exact ⟨e, he, by rw [if_pos hp]⟩

theorem mem_othPre_iff {entries : List Entry} {d : OtherDesc} :
    d ∈ otherPreOf entries ↔
      ∃ e ∈ entries, entryIsPwd e = false ∧ d = mkOtherDesc e := by
  unfold otherPreOf
  rw [List.mem_filterMap]
  constructor
  · rintro ⟨e, he, hfe⟩
    by_cases hp : entryIsPwd e = true
    · rw [if_pos hp] at hfe
      cases hfe
    · rw [if_neg hp] at hfe
      exact ⟨e, he, by simpa using hp, (Option.some_inj.mp hfe).symm⟩
  · rintro ⟨e, he, hp, rfl⟩
    refine ⟨e, he, ?_⟩
    rw [if_neg (by simp [hp])]

theorem entry_fields (root : Node) (cands : List Path) :
    ∀ e ∈ collectEntries root cands,
      e.node = nodeAtD root e.path ∧ e.type = optAttr e.node "type" ∧
      e.id = optAttr e.node "id" ∧ e.name = optAttr e.node "name" ∧
      e.placeholder = optAttr e.node "placeholder" := by
  intro e he
  obtain ⟨p, _, rfl⟩ := collectGo_shape root cands 0 [] e he
  exact ⟨rfl, rfl, rfl, rfl, rfl⟩

theorem entryIsPwd_true_iff {e : Entry} :
    entryIsPwd e = true ↔ e.node.attrOf "type" = some "password" := by
  simp [entryIsPwd]

theorem optAttr_pwd {n : Node} (h : n.attrOf "type" = some "password") :
    optAttr n "type" = some "password" := by
  simp [optAttr, h]

/-! ## C4 -/

/-- A multipart-auth shape: a `section` holding an email input (inside a
`div`) and one unrelated text input, and no password input anywhere. -/
def secDoc : Node :=
  .elem "html" [] [
    .elem "head" [] [],
    .elem "body" [] [
      .elem "section" [] [
        .elem "div" [] [
          .elem "input" [("type", "email"), ("name", "email")] []],
        .elem "input" [("type", "text")] []]]]

/-- C4 counterexample: in `secDoc` the `section` ancestor holds an
email-shaped input and no password input, yet the PERMISSIVE variant's walk
does not treat it as eligible (it falls back to the immediate parent `div`),
while the STRICT variant's flexible walk does — the opposite of the claimed
mode assignment. -/
theorem c4_counterexample :
    hasEmailUsernameAt secDoc [1, 0] = true ∧
    hasPasswordAt secDoc [1, 0] = false ∧
    firstEntryPathPerm secDoc = some [1, 0, 0, 0] ∧
    [1, 0] ∈ visitedAncestors secDoc [1, 0, 0, 0] ∧
    eligPerm secDoc [1, 0] = false ∧
    walkCands secDoc eligPerm [1, 0, 0, 0] = [] ∧
    containerPerm secDoc = some [1, 0, 0] ∧
    eligFlex secDoc [1, 0] = true ∧
    bestOf secDoc eligFlex scoreFlex [1, 0, 0, 0] = some [1, 0] := by
  decide

/-- C4 amended: during the ancestor walk an examined ancestor is a container
candidate in the PERMISSIVE variant exactly when it contains both an
email/username-shaped input and a password input, while in the STRICT
variant (whose walk is the flexible one) an examined ancestor containing an
email/username-shaped input is a candidate whether or not it also contains a
password input (traditional or multipart auth). -/
theorem c4_amended_eligibility (root : Node) (p q : Path) :
    (q ∈ walkCands root eligPerm p ↔
      (q ∈ visitedAncestors root p ∧ hasEmailUsernameAt root q = true ∧
        hasPasswordAt root q = true)) ∧
    (q ∈ walkCands root eligFlex p ↔
      (q ∈ visitedAncestors root p ∧ hasEmailUsernameAt root q = true)) := by
  constructor
  · rw [mem_walkCands_iff]
    constructor
    · rintro ⟨hv, he⟩
      have := he
      simp only [eligPerm, Bool.and_eq_true] at this
      exact ⟨hv, this.1, this.2⟩
    · rintro ⟨hv, h1, h2⟩
      exact ⟨hv, by simp [eligPerm, h1, h2]⟩
  · rw [mem_walkCands_iff]
    constructor
    · rintro ⟨hv, he⟩
      refine ⟨hv, ?_⟩
      cases hpw : hasPasswordAt root q <;>
        simpa [eligFlex, hpw] using he
    · rintro ⟨hv, h1⟩
      refine ⟨hv, ?_⟩
      cases hpw : hasPasswordAt root q <;> simp [eligFlex, hpw, h1]

/-! ## C5 -/

theorem pwdList_origin {entries : List Entry} {d : PwdDesc}
    (h : d ∈ dedupByKey tripleP (pwdPreOf entries)) :
    ∃ e ∈ entries, entryIsPwd e = true ∧ d = mkPwdDesc e :=
  mem_pwdPre_iff.mp ((dedupByKey_sublist tripleP (pwdPreOf entries)).subset h)

theorem othList_origin {entries : List Entry} {d : OtherDesc}
    (h : d ∈ dedupByKey tripleO (otherPreOf entries)) :
    ∃ e ∈ entries, entryIsPwd e = false ∧ d = mkOtherDesc e :=
  mem_othPre_iff.mp ((dedupByKey_sublist tripleO (otherPreOf entries)).subset h)

/-- C5: in every report of either variant, `passwordInputs` holds only
descriptors whose stored type is literally `password`, and the two lists
partition the classified inputs: every password descriptor stems from an
element whose raw type attribute is `password`, every other-input descriptor
from an element whose raw type attribute is not `password`, so no classified
input contributes to both lists. -/
theorem c5_partition (root : Node) :
    (∀ d ∈ (parsePermissive root).passwordInputs, d.type = some "password") ∧
    (∀ d ∈ (parseStrict root).passwordInputs, d.type = some "password") ∧
    (∀ d ∈ (parsePermissive root).passwordInputs, ∃ e ∈ entriesPerm root,
      e.node.attrOf "type" = some "password" ∧ d = mkPwdDesc e) ∧
    (∀ d ∈ (parsePermissive root).otherInputs, ∃ e ∈ entriesPerm root,
      e.node.attrOf "type" ≠ some "password" ∧ d = mkOtherDesc e) ∧
    (∀ d ∈ (parseStrict root).passwordInputs, ∃ e ∈ entriesStrict root,
      e.node.attrOf "type" = some "password" ∧ d = mkPwdDesc e) ∧
    (∀ d ∈ (parseStrict root).otherInputs, ∃ e ∈ entriesStrict root,
      e.node.attrOf "type" ≠ some "password" ∧ d = mkOtherDesc e) := by
  have hpwdP : ∀ d ∈ pwdListPerm root, ∃ e ∈ entriesPerm root,
      e.node.attrOf "type" = some "password" ∧ d = mkPwdDesc e := by
    intro d hd
    obtain ⟨e, he, hp, hde⟩ := pwdList_origin hd
    exact ⟨e, he, entryIsPwd_true_iff.mp hp, hde⟩
  have hpwdS : ∀ d ∈ pwdListStrict root, ∃ e ∈ entriesStrict root,
      e.node.attrOf "type" = some "password" ∧ d = mkPwdDesc e := by
    intro d hd
    obtain ⟨e, he, hp, hde⟩ := pwdList_origin hd
    exact ⟨e, he, entryIsPwd_true_iff.mp hp, hde⟩
  have hothP : ∀ d ∈ othListPerm root, ∃ e ∈ entriesPerm root,
      e.node.attrOf "type" ≠ some "password" ∧ d = mkOtherDesc e := by
    intro d hd
    obtain ⟨e, he, hp, hde⟩ := othList_origin hd
    refine ⟨e, he, ?_, hde⟩
    intro hc
    rw [entryIsPwd_true_iff.mpr hc] at hp
    cases hp
  have hothS : ∀ d ∈ othListStrict root, ∃ e ∈ entriesStrict root,
      e.node.attrOf "type" ≠ some "password" ∧ d = mkOtherDesc e := by
    intro d hd
    obtain ⟨e, he, hp, hde⟩ := othList_origin hd
    refine ⟨e, he, ?_, hde⟩
    intro hc
    rw [entryIsPwd_true_iff.mpr hc] at hp
    cases hp
  have htypeOf : ∀ (cands : List Path), ∀ e ∈ collectEntries root cands,
      e.node.attrOf "type" = some "password" →
      (mkPwdDesc e).type = some "password" := by
    intro cands e he hp
    obtain ⟨_, hty, _, _, _⟩ := entry_fields root cands e he
    show e.type = some "password"
    rw [hty]
    exact optAttr_pwd hp
  have htyP : ∀ d ∈ pwdListPerm root, d.type = some "password" := by
    intro d hd
    obtain ⟨e, he, hpe, rfl⟩ := hpwdP d hd
    exact htypeOf (permCands root) e he hpe
  have htyS : ∀ d ∈ pwdListStrict root, d.type = some "password" := by
    intro d hd
    obtain ⟨e, he, hpe, rfl⟩ := hpwdS d hd
    exact htypeOf (strictCands root) e he hpe
  refine ⟨?_, ?_, ?_, ?_, ?_, ?_⟩
  · rcases parsePerm_lists root with ⟨h1, _⟩ | ⟨h1, _⟩ <;> rw [h1]
    · exact htyP
    · intro d hd; cases hd
  · rcases parseStrict_lists root with ⟨h1, _⟩ | ⟨h1, _⟩ <;> rw [h1]
    · exact htyS
    · intro d hd; cases hd
  · rcases parsePerm_lists root with ⟨h1, _⟩ | ⟨h1, _⟩ <;> rw [h1]
    · exact hpwdP
    · intro d hd; cases hd
  · rcases parsePerm_lists root with ⟨_, h2⟩ | ⟨_, h2⟩ <;> rw [h2]
    · exact hothP
    · intro d hd; cases hd
  · rcases parseStrict_lists root with ⟨h1, _⟩ | ⟨h1, _⟩ <;> rw [h1]
    · exact hpwdS
    · intro d hd; cases hd
  · rcases parseStrict_lists root with ⟨_, h2⟩ | ⟨_, h2⟩ <;> rw [h2]
    · exact hothS
    · intro d hd; cases hd

/-! ## C6 -/

/-- Two syntactically identical password inputs sharing name and type. -/
def c6doc : Node :=
  .elem "html" [] [
    .elem "head" [] [],
    .elem "body" [] [
      .elem "input" [("type", "password"), ("name", "p")] [],
      .elem "input" [("type", "password"), ("name", "p")] []]]

/-- C6: both report lists are deduplicated by the (id, name, type) triple:
two members with equal triples are the same descriptor, the kept list is a
sublist of the pre-deduplication list (first-seen order preserved), every
pre-deduplication descriptor is represented by a kept one with the same
triple, every kept descriptor is the FIRST of its triple in the
pre-deduplication list, and a document with two syntactically identical
password inputs yields exactly one descriptor in each variant. -/
theorem c6_dedup_by_triple (root : Node) :
    (∀ x ∈ (parsePermissive root).passwordInputs,
      ∀ y ∈ (parsePermissive root).passwordInputs, tripleP x = tripleP y → x = y) ∧
    (∀ x ∈ (parsePermissive root).otherInputs,
      ∀ y ∈ (parsePermissive root).otherInputs, tripleO x = tripleO y → x = y) ∧
    (∀ x ∈ (parseStrict root).passwordInputs,
      ∀ y ∈ (parseStrict root).passwordInputs, tripleP x = tripleP y → x = y) ∧
    (∀ x ∈ (parseStrict root).otherInputs,
      ∀ y ∈ (parseStrict root).otherInputs, tripleO x = tripleO y → x = y) ∧
    (parsePermissive root).passwordInputs.Sublist (pwdPreOf (entriesPerm root)) ∧
    (parsePermissive root).otherInputs.Sublist (otherPreOf (entriesPerm root)) ∧
    (parseStrict root).passwordInputs.Sublist (pwdPreOf (entriesStrict root)) ∧
    (parseStrict root).otherInputs.Sublist (otherPreOf (entriesStrict root)) ∧
    ((parsePermissive root).hasPasswordInput = true →
      (∀ x ∈ pwdPreOf (entriesPerm root),
        ∃ y ∈ (parsePermissive root).passwordInputs, tripleP y = tripleP x) ∧
      (∀ x ∈ otherPreOf (entriesPerm root),
        ∃ y ∈ (parsePermissive root).otherInputs, tripleO y = tripleO x)) ∧
    (∀ y ∈ (parsePermissive root).passwordInputs, ∃ i : Nat,
      (pwdPreOf (entriesPerm root))[i]? = some y ∧
      ∀ (j : Nat) (z : PwdDesc), j < i →
        (pwdPreOf (entriesPerm root))[j]? = some z → tripleP z ≠ tripleP y) ∧
    (∀ y ∈ (parsePermissive root).otherInputs, ∃ i : Nat,
      (otherPreOf (entriesPerm root))[i]? = some y ∧
      ∀ (j : Nat) (z : OtherDesc), j < i →
        (otherPreOf (entriesPerm root))[j]? = some z → tripleO z ≠ tripleO y) ∧
    (∀ y ∈ (parseStrict root).passwordInputs, ∃ i : Nat,
      (pwdPreOf (entriesStrict root))[i]? = some y ∧
      ∀ (j : Nat) (z : PwdDesc), j < i →
        (pwdPreOf (entriesStrict root))[j]? = some z → tripleP z ≠ tripleP y) ∧
    (∀ y ∈ (parseStrict root).otherInputs, ∃ i : Nat,
      (otherPreOf (entriesStrict root))[i]? = some y ∧
      ∀ (j : Nat) (z : OtherDesc), j < i →
        (otherPreOf (entriesStrict root))[j]? = some z → tripleO z ≠ tripleO y) ∧
    (parsePermissive c6doc).passwordInputs.length = 1 ∧
    (parseStrict c6doc).passwordInputs.length = 1 := by
  have hinjP : ∀ (l : List PwdDesc), ∀ x ∈ dedupByKey tripleP l,
      ∀ y ∈ dedupByKey tripleP l, tripleP x = tripleP y → x = y :=
    fun l x hx y hy => dedupByKey_key_inj tripleP l hx hy
  have hinjO : ∀ (l : List OtherDesc), ∀ x ∈ dedupByKey tripleO l,
      ∀ y ∈ dedupByKey tripleO l, tripleO x = tripleO y → x = y :=
    fun l x hx y hy => dedupByKey_key_inj tripleO l hx hy
  refine ⟨?_, ?_, ?_, ?_, ?_, ?_, ?_, ?_, ?_, ?_, ?_, ?_, ?_, by decide, by decide⟩
  · rcases parsePerm_lists root with ⟨h1, _⟩ | ⟨h1, _⟩ <;> rw [h1]
    · exact hinjP _
    · intro x hx; cases hx
  · rcases parsePerm_lists root with ⟨_, h2⟩ | ⟨_, h2⟩ <;> rw [h2]
    · exact hinjO _
    · intro x hx; cases hx
  · rcases parseStrict_lists root with ⟨h1, _⟩ | ⟨h1, _⟩ <;> rw [h1]
    · exact hinjP _
    · intro x hx; cases hx
  · rcases parseStrict_lists root with ⟨_, h2⟩ | ⟨_, h2⟩ <;> rw [h2]
    · exact hinjO _
    · intro x hx; cases hx
  · rcases parsePerm_lists root with ⟨h1, _⟩ | ⟨h1, _⟩ <;> rw [h1]
    · exact dedupByKey_sublist _ _
    · exact List.nil_sublist _
  · rcases parsePerm_lists root with ⟨_, h2⟩ | ⟨_, h2⟩ <;> rw [h2]
    · exact dedupByKey_sublist _ _
    · exact List.nil_sublist _
  · rcases parseStrict_lists root with ⟨h1, _⟩ | ⟨h1, _⟩ <;> rw [h1]
    · exact dedupByKey_sublist _ _
    · exact List.nil_sublist _
  · rcases parseStrict_lists root with ⟨_, h2⟩ | ⟨_, h2⟩ <;> rw [h2]
    · exact dedupByKey_sublist _ _
    · exact List.nil_sublist _
  · intro hpos
    have hne : ¬ (permCands root).isEmpty = true := by
      intro hempty
      have : parsePermissive root = emptyAuthForm := by
        unfold parsePermissive
        rw [if_pos hempty]
      rw [this] at hpos
      cases hpos
    have h1 : (parsePermissive root).passwordInputs = pwdListPerm root := by
      unfold parsePermissive
      rw [if_neg hne]
    have h2 : (parsePermissive root).otherInputs = othListPerm root := by
      unfold parsePermissive
      rw [if_neg hne]
    rw [h1, h2]
    exact ⟨fun x hx => dedupByKey_repr tripleP _ hx,
      fun x hx => dedupByKey_repr tripleO _ hx⟩
  · rcases parsePerm_lists root with ⟨h1, _⟩ | ⟨h1, _⟩ <;> rw [h1]
    · exact fun y hy => dedupByKey_first tripleP _ hy
    · intro y hy; cases hy
  · rcases parsePerm_lists root with ⟨_, h2⟩ | ⟨_, h2⟩ <;> rw [h2]
    · exact fun y hy => dedupByKey_first tripleO _ hy
    · intro y hy; cases hy
  · rcases parseStrict_lists root with ⟨h1, _⟩ | ⟨h1, _⟩ <;> rw [h1]
    · exact fun y hy => dedupByKey_first tripleP _ hy
    · intro y hy; cases hy
  · rcases parseStrict_lists root with ⟨_, h2⟩ | ⟨_, h2⟩ <;> rw [h2]
    · exact fun y hy => dedupByKey_first tripleO _ hy
    · intro y hy; cases hy

/-! ## C10 -/

/-- C10: in both variants, every `otherInputs` descriptor's `type` field is
the element's id attribute when present (JavaScript-truthy, i.e. non-empty),
else its type attribute, else the literal `"text"`; in particular an input
with an id reports its id value, not its type attribute. -/
theorem c10_other_type_is_id (root : Node) :
    (∀ d ∈ (parsePermissive root).otherInputs, ∃ e ∈ entriesPerm root,
      d = mkOtherDesc e ∧
      d.type = ((optAttr e.node "id").orElse
        (fun _ => optAttr e.node "type")).getD "text" ∧
      (∀ i, optAttr e.node "id" = some i → d.type = i)) ∧
    (∀ d ∈ (parseStrict root).otherInputs, ∃ e ∈ entriesStrict root,
      d = mkOtherDesc e ∧
      d.type = ((optAttr e.node "id").orElse
        (fun _ => optAttr e.node "type")).getD "text" ∧
      (∀ i, optAttr e.node "id" = some i → d.type = i)) := by
  have hmain : ∀ (cands : List Path), ∀ d ∈ dedupByKey tripleO
      (otherPreOf (collectEntries root cands)), ∃ e ∈ collectEntries root cands,
      d = mkOtherDesc e ∧
      d.type = ((optAttr e.node "id").orElse
        (fun _ => optAttr e.node "type")).getD "text" ∧
      (∀ i, optAttr e.node "id" = some i → d.type = i) := by
    intro cands d hd
    obtain ⟨e, he, _, rfl⟩ := othList_origin hd
    obtain ⟨_, _, hid, _, _⟩ := entry_fields root cands e he
    refine ⟨e, he, rfl, ?_, ?_⟩
    · show (e.id.orElse (fun _ => e.type)).getD "text" = _
      obtain ⟨_, hty, _, _, _⟩ := entry_fields root cands e he
      rw [hid, hty]
    · intro i hi
      show (e.id.orElse (fun _ => e.type)).getD "text" = i
      rw [hid, hi]
      rfl
  constructor
  · rcases parsePerm_lists root with ⟨_, h2⟩ | ⟨_, h2⟩ <;> rw [h2]
    · exact hmain (permCands root)
    · intro d hd; cases hd
  · rcases parseStrict_lists root with ⟨_, h2⟩ | ⟨_, h2⟩ <;> rw [h2]
    · exact hmain (strictCands root)
    · intro d hd; cases hd

/-! ## C2 -/

/-- A forged selector-key collision: the first input's type attribute embeds
the key's delimiter characters so that its synthesized selector string
equals the one of the genuine password input that follows; the password
input is then skipped as a "duplicate". -/
def c2doc : Node :=
  .elem "html" [] [
    .elem "head" [] [],
    .elem "body" [] [
      .elem "input" [("type", "password[id=\"x")] [],
      .elem "input" [("type", "password"), ("id", "x[id=\"input-0")] []]]

/-- C2 counterexample: `c2doc` contains an input whose type attribute is
literally `password`, yet the permissive variant's report, though positive,
has an empty `passwordInputs` list — the password input was dropped by the
selector-string duplicate tracking. -/
theorem c2_counterexample :
    (∃ p ∈ inputPaths c2doc, attrAt c2doc p "type" = some "password") ∧
    (parsePermissive c2doc).hasPasswordInput = true ∧
    (parsePermissive c2doc).passwordInputs = [] := by
  decide

/-- C2 amended: for every document containing an `input[type=password]`,
both variants return `hasPasswordInput = true` with a non-empty
`passwordInputs` list, PROVIDED the synthesized selector keys are
collision-free (no password-typed candidate shares its key string with a
non-password candidate; only attribute values embedding the key's delimiter
characters can break this, as the counterexample does). -/
theorem c2_amended_password_supremacy (root : Node)
    (hex : ∃ p ∈ inputPaths root, attrAt root p "type" = some "password")
    (H1 : keyCollisionFree root (permCands root))
    (H2 : keyCollisionFree root (strictCands root)) :
    (parsePermissive root).hasPasswordInput = true ∧
    (parsePermissive root).passwordInputs ≠ [] ∧
    (parseStrict root).hasPasswordInput = true ∧
    (parseStrict root).passwordInputs ≠ [] := by
  obtain ⟨p, hpin, hpty⟩ := hex
  have hpc : p ∈ permCands root :=
    List.mem_filter.mpr ⟨hpin, permissiveCandidate_of_pwd root p hpty⟩
  have hsc : p ∈ strictCands root :=
    List.mem_filter.mpr ⟨hpin, strictCandidate_of_pwd root p hpty⟩
  have hpsel : p ∈ pwdSelStrict root :=
    List.mem_filter.mpr ⟨hpin, by simp [hpty]⟩
  have hpwdsP : pwdListPerm root ≠ [] := by
    have hexC : ∃ q ∈ permCands root,
        (nodeAtD root q).attrOf "type" = some "password" :=
      ⟨p, hpc, by rw [← attrAt_nodeAtD]; exact hpty⟩
    obtain ⟨e, he, hpe⟩ := collectGo_pwd_exists root (permCands root) H1
      (permCands root) [] [] rfl (by intro k hk; cases hk) hexC
    have hmem : mkPwdDesc e ∈ pwdPreOf (entriesPerm root) :=
      mem_pwdPre_iff.mpr ⟨e, he, entryIsPwd_true_iff.mpr hpe, rfl⟩
    exact dedupByKey_ne_nil tripleP (List.ne_nil_of_mem hmem)
  have hpwdsS : pwdListStrict root ≠ [] := by
    have hexC : ∃ q ∈ strictCands root,
        (nodeAtD root q).attrOf "type" = some "password" :=
      ⟨p, hsc, by rw [← attrAt_nodeAtD]; exact hpty⟩
    obtain ⟨e, he, hpe⟩ := collectGo_pwd_exists root (strictCands root) H2
      (strictCands root) [] [] rfl (by intro k hk; cases hk) hexC
    have hmem : mkPwdDesc e ∈ pwdPreOf (entriesStrict root) :=
      mem_pwdPre_iff.mpr ⟨e, he, entryIsPwd_true_iff.mpr hpe, rfl⟩
    exact dedupByKey_ne_nil tripleP (List.ne_nil_of_mem hmem)
  have hEp : (permCands root).isEmpty = false := by
    by_cases hE : (permCands root).isEmpty = true
    · exact absurd (List.isEmpty_iff.mp hE) (List.ne_nil_of_mem hpc)
    · simpa using hE
  have hEsel : (pwdSelStrict root).isEmpty = false := by
    by_cases hE : (pwdSelStrict root).isEmpty = true
    · exact absurd (List.isEmpty_iff.mp hE) (List.ne_nil_of_mem hpsel)
    · simpa using hE
  have hEpl : (pwdListStrict root).isEmpty = false := by
    by_cases hE : (pwdListStrict root).isEmpty = true
    · exact absurd (List.isEmpty_iff.mp hE) hpwdsS
    · simpa using hE
  have hPne : ¬ (permCands root).isEmpty = true := by simp [hEp]
  have hg1 : ¬ ((pwdSelStrict root).isEmpty && (strictCands root).isEmpty) = true := by
    simp [hEsel]
  have hg2 : ¬ ((pwdListStrict root).isEmpty &&
      !((othListStrict root).any gateEU)) = true := by
    simp [hEpl]
  refine ⟨?_, ?_, ?_, ?_⟩
  · unfold parsePermissive
    rw [if_neg hPne]
  · unfold parsePermissive
    rw [if_neg hPne]
    simpa using hpwdsP
  · unfold parseStrict
    rw [if_neg hg1, if_neg hg2]
  · unfold parseStrict
    rw [if_neg hg1, if_neg hg2]
    simpa using hpwdsS

/-- C2 witness: the amended property discharged on the plain login form,
whose selector keys are collision-free. -/
theorem c2_amended_witness :
    ((∃ p ∈ inputPaths demoForm, attrAt demoForm p "type" = some "password") ∧
      keyCollisionFree demoForm (permCands demoForm) ∧
      keyCollisionFree demoForm (strictCands demoForm)) ∧
    ((parsePermissive demoForm).hasPasswordInput = true ∧
      (parsePermissive demoForm).passwordInputs ≠ [] ∧
      (parseStrict demoForm).hasPasswordInput = true ∧
      (parseStrict demoForm).passwordInputs ≠ []) :=
  ⟨⟨by decide, by decide, by decide⟩,
    c2_amended_password_supremacy demoForm (by decide) (by decide) (by decide)⟩

/-! ## C7 -/

/-- C7: each walk candidate is scored by its non-hidden descendant input
count, the strict variant adding a fixed +100 exactly for traditional-auth
candidates (email/username and password both present); the chosen
`bestParent` is the first candidate, in inner-to-outer walk order, attaining
the maximal score: all earlier candidates score strictly lower (only
strictly greater scores update the best) and no later candidate scores
higher. -/
theorem c7_first_max_scoring (root : Node) (p : Path)
    (h1 : walkCands root eligPerm p ≠ [])
    (h2 : walkCands root eligFlex p ≠ []) :
    (∀ q, scorePerm root q = countNonHidden root q) ∧
    (∀ q, scoreFlex root q = countNonHidden root q +
      (if hasEmailUsernameAt root q && hasPasswordAt root q then 100 else 0)) ∧
    (∃ c l₁ l₂, bestOf root eligPerm scorePerm p = some c ∧
      walkCands root eligPerm p = l₁ ++ c :: l₂ ∧
      (∀ r ∈ l₁, scorePerm root r < scorePerm root c) ∧
      (∀ r ∈ l₂, scorePerm root r ≤ scorePerm root c)) ∧
    (∃ c l₁ l₂, bestOf root eligFlex scoreFlex p = some c ∧
      walkCands root eligFlex p = l₁ ++ c :: l₂ ∧
      (∀ r ∈ l₁, scoreFlex root r < scoreFlex root c) ∧
      (∀ r ∈ l₂, scoreFlex root r ≤ scoreFlex root c)) := by
  refine ⟨fun q => rfl, fun q => ?_, ?_, ?_⟩
  · unfold scoreFlex
    by_cases hb : (hasEmailUsernameAt root q && hasPasswordAt root q) = true
    · rw [if_pos hb, if_pos hb]
    · rw [if_neg hb, if_neg hb]
      omega
  · exact bestOf_split root eligPerm scorePerm p h1
  · exact bestOf_split root eligFlex scoreFlex p h2

/-- C7 witness: the first-maximum characterisation discharged on the plain
login form, whose walk sees the form as its single candidate. -/
theorem c7_witness :
    (walkCands demoForm eligPerm [1, 0, 0] ≠ [] ∧
      walkCands demoForm eligFlex [1, 0, 0] ≠ []) ∧
    ((∀ q, scorePerm demoForm q = countNonHidden demoForm q) ∧
      (∀ q, scoreFlex demoForm q = countNonHidden demoForm q +
        (if hasEmailUsernameAt demoForm q && hasPasswordAt demoForm q
          then 100 else 0)) ∧
      (∃ c l₁ l₂, bestOf demoForm eligPerm scorePerm [1, 0, 0] = some c ∧
        walkCands demoForm eligPerm [1, 0, 0] = l₁ ++ c :: l₂ ∧
        (∀ r ∈ l₁, scorePerm demoForm r < scorePerm demoForm c) ∧
        (∀ r ∈ l₂, scorePerm demoForm r ≤ scorePerm demoForm c)) ∧
      (∃ c l₁ l₂, bestOf demoForm eligFlex scoreFlex [1, 0, 0] = some c ∧
        walkCands demoForm eligFlex [1, 0, 0] = l₁ ++ c :: l₂ ∧
        (∀ r ∈ l₁, scoreFlex demoForm r < scoreFlex demoForm c) ∧
        (∀ r ∈ l₂, scoreFlex demoForm r ≤ scoreFlex demoForm c))) :=
  ⟨⟨by decide, by decide⟩,
    c7_first_max_scoring demoForm [1, 0, 0] (by decide) (by decide)⟩

end AuthScan
